import Mathlib

/-!
Formal model of the golden PCA reference
(src/DirectProgramming/C++SYCL_FPGA/ReferenceDesigns/svd/src/golden_pca.hpp).

The C++ code works on IEEE doubles (intermediate buffers are std::vector<double>,
class storage is std::vector<T>).  We model a floating-point value by Option Real:
some x is a finite value, with arithmetic taken exact (rounding and overflow are
idealized away), and none is a non-finite result (NaN).  In this program every
division whose divisor is zero has a zero numerator as well (the Gram-Schmidt
normalization divides a column by the square root of its own sum of squares, and
the Wilkinson-shift divisor abs d + sqrt (d*d + b*b) is zero only when both b*b
and d are zero, in which case the numerator sign(d)*b*b is zero too), so 0/0 = NaN
is the only non-finite value the exact-arithmetic model can produce, and none
faithfully stands for NaN.  IEEE comparisons with NaN are false, which dlt mirrors.

Flat row-major buffers indexed matrix*(rows*cols) + row*cols + col in the source
are rendered as curried index functions (matrix, row, col); each access below is
the decoded form of the corresponding flat index expression of the source.
-/

noncomputable section

/-- Model of a C++ double: some x = finite value (exact arithmetic), none = NaN. -/
abbrev D := Option ℝ

/-- Model of a square matrix buffer, indexed (row, col); entries outside the
features range are junk that the algorithm never reads. -/
abbrev Mat := ℕ → ℕ → D

/-- IEEE addition with NaN propagation (exact on finite values). -/
def dadd : D → D → D
  | some a, some b => some (a + b)
  | _, _ => none

/-- IEEE subtraction with NaN propagation. -/
def dsub : D → D → D
  | some a, some b => some (a - b)
  | _, _ => none

/-- IEEE multiplication with NaN propagation (0 * NaN = NaN, as in IEEE). -/
def dmul : D → D → D
  | some a, some b => some (a * b)
  | _, _ => none

/-- IEEE negation. -/
def dneg : D → D
  | some a => some (-a)
  | none => none

/-- fabs / abs on doubles. -/
def dabs : D → D
  | some a => some |a|
  | none => none

/-- IEEE division: x/NaN and NaN/x are NaN; division by zero is non-finite
(in this program always 0/0, i.e. NaN). -/
def ddiv : D → D → D
  | some a, some b => if b = 0 then none else some (a / b)
  | _, _ => none

/-- Model of std::sqrt: NaN on NaN and on negative arguments. -/
def dsqrt : D → D
  | some a => if a < 0 then none else some (Real.sqrt a)
  | none => none

/-- IEEE comparison a < b: false whenever either side is NaN. -/
def dlt : D → D → Bool
  | some a, some b => decide (a < b)
  | _, _ => false

/-- Left-to-right accumulation starting from 0.0, the shape of every
`acc = 0; for (...) acc += ...;` loop in the source. -/
def dsum (l : List D) : D := l.foldl dadd (some 0)

/-- constexpr float kZeroThreshold = 1e-8 (idealized to the exact rational). -/
def kZeroThreshold : ℝ := 1 / 100000000

/-- The threshold as a D value. -/
def dThr : D := some kZeroThreshold

/-- The GoldenPCA class state: dimensions, flags and the five storage vectors
(lines 27-36 of golden_pca.hpp). iterations is stored as a value of type T in the
source, hence a D here. -/
structure GoldenPCA where
  samples : ℕ
  features : ℕ
  matrixCount : ℕ
  debug : Bool
  benchmarkMode : Bool
  aMatrix : ℕ → ℕ → ℕ → D
  covarianceMatrix : ℕ → ℕ → ℕ → D
  eigenvalues : ℕ → ℕ → D
  eigenvectors : ℕ → ℕ → ℕ → D
  iterations : ℕ → D

/-- Constructor GoldenPCA::GoldenPCA (lines 43-64).  All five vectors are
resize-d, which zero-initializes them.  The copy loop writes
a_matrix[r * p + c] = input_mat[r][c] for r < n, c < p only: these flat indices
all lie below n*p, i.e. inside batch entry 0, so in the (matrix, row, col)
rendering only entries with matrix index 0 receive input data and every other
batch entry keeps its zero initialization. -/
def construct (n p count : ℕ) (d bench : Bool) (input : ℕ → ℕ → ℝ) : GoldenPCA where
  samples := n
  features := p
  matrixCount := count
  debug := d
  benchmarkMode := bench
  aMatrix := fun m r c => if m = 0 ∧ r < n ∧ c < p then some (input r c) else some 0
  covarianceMatrix := fun _ _ _ => some 0
  eigenvalues := fun _ _ => some 0
  eigenvectors := fun _ _ _ => some 0
  iterations := fun _ => some 0

/-- The dot-product accumulation of ComputeCovarianceIthMatrix (lines 79-83):
double dot_product = 0; for k < samples: dot_product += x k * y k. -/
def dotProduct (n : ℕ) (x y : ℕ → D) : D :=
  dsum ((List.range n).map fun k => dmul (x k) (y k))

/-- GoldenPCA::ComputeCovarianceIthMatrix (lines 67-108).  For row, col below
features, covariance_matrix[offset + row*features + col] receives the dot product
of sample columns row and col: a_matrix[a_offset + k*features + row] decodes to
aMatrix m k row.  The debug branches only print and touch no numeric state. -/
def computeCovarianceIthMatrix (p : GoldenPCA) (m : ℕ) : GoldenPCA :=
  { p with covarianceMatrix := fun m' row col =>
      if m' = m ∧ row < p.features ∧ col < p.features then
        dotProduct p.samples (fun k => p.aMatrix m k row) (fun k => p.aMatrix m k col)
      else p.covarianceMatrix m' row col }

/-- GoldenPCA::ComputeCovarianceMatrix (lines 111-115): the batch loop. -/
def computeCovarianceMatrix (p : GoldenPCA) : GoldenPCA :=
  (List.range p.matrixCount).foldl computeCovarianceIthMatrix p

/-- Lines 162-165: a row is "effectively zero" when every sub-diagonal entry
rq[row*features + col], col < row, has magnitude below the threshold.
Note fabs(NaN) < t is false, so a NaN entry makes the row non-zero. -/
def rowIsZero (rq : Mat) (row : ℕ) : Bool :=
  (List.range row).all fun col => dlt (dabs (rq row col)) dThr

/-- Lines 160-170: scan row = features-1 down to 1, decrementing shift_row for
each effectively-zero row, stopping at the first non-zero row.  The first
argument is the current row, the second the current shift_row value. -/
def shiftRowGo (rq : Mat) : ℕ → ℤ → ℤ
  | 0, sr => sr
  | r + 1, sr => if rowIsZero rq (r + 1) then shiftRowGo rq r (sr - 1) else sr

/-- shift_row as computed by lines 160-170: start at features - 2 and scan from
row features - 1 downward. -/
def findShiftRow (f : ℕ) (rq : Mat) : ℤ := shiftRowGo rq (f - 1) ((f : ℤ) - 2)

/-- Lines 156-191: the Wilkinson shift from the trailing 2x2 submatrix at
shift_row.  rq[s + features*s] decodes to entry (s, s), rq[s + features*(s+1)]
to entry (s+1, s) and rq[(s+1) + features*(s+1)] to entry (s+1, s+1).
When shift_row < 0 the shift stays 0.  There is no special case for
b = d = 0: the expression is evaluated as written. -/
def computeShiftValue (f : ℕ) (rq : Mat) : D :=
  let sr := findShiftRow f rq
  if 0 ≤ sr then
    let s := sr.toNat
    let a := rq s s
    let b := rq (s + 1) s
    let c := rq (s + 1) (s + 1)
    let d := ddiv (dsub a c) (some 2)
    let bsq := dmul b b
    let dsq := dmul d d
    let bss := if dlt d (some 0) then dneg bsq else bsq
    dsub c (ddiv bss (dadd (dabs d) (dsqrt (dadd dsq bsq))))
  else some 0

/-- Lines 214-217: norm accumulation over column i of the working matrix. -/
def colNorm (f : ℕ) (A : Mat) (i : ℕ) : D :=
  dsum ((List.range f).map fun k => dmul (A k i) (A k i))

/-- Lines 226-229: projection coefficient of column j of A on column i of q. -/
def gsDot (f : ℕ) (q : Mat) (i : ℕ) (A : Mat) (j : ℕ) : D :=
  dsum ((List.range f).map fun k => dmul (q k i) (A k j))

/-- Lines 225-235: the inner Gram-Schmidt loop body for one j > i: record
r[i][j] = dp and subtract dp * q-column-i from column j of the working matrix. -/
def gsInner (f i : ℕ) (q : Mat) : (Mat × Mat) → ℕ → (Mat × Mat) :=
  fun rr j =>
    let dp := gsDot f q i rr.2 j
    let rmat := fun a b => if a = i ∧ b = j then dp else rr.1 a b
    let rq := fun k c => if c = j ∧ k < f then dsub (rr.2 k c) (dmul dp (q k i)) else rr.2 k c
    (rmat, rq)

/-- Lines 213-236: one outer Gram-Schmidt step for column i on the state
(q, r, rq): normalize column i (r_ii = sqrt of its norm, q column i = rq column i
divided by r_ii, with no guard against a zero norm), then project column i out
of every later column j. -/
def gsOuter (f : ℕ) : (Mat × Mat × Mat) → ℕ → (Mat × Mat × Mat) :=
  fun st i =>
    let rii := dsqrt (colNorm f st.2.2 i)
    let rmat := fun a b => if a = i ∧ b = i then rii else st.2.1 a b
    let q := fun k c => if c = i ∧ k < f then ddiv (st.2.2 k i) rii else st.1 k c
    let inner := (List.range' (i + 1) (f - (i + 1))).foldl (gsInner f i q) (rmat, st.2.2)
    (q, inner.1, inner.2)

/-- Lines 206-236: the full modified Gram-Schmidt QR decomposition of the shifted
working matrix; q and r start zeroed (lines 207-212). -/
def gramSchmidtQR (f : ℕ) (rq : Mat) : Mat × Mat × Mat :=
  (List.range f).foldl (gsOuter f) ((fun _ _ => some 0), (fun _ _ => some 0), rq)

/-- Per-matrix solver state of ComputeEigenValuesAndVectors: the working matrix
rq, the eigenvector accumulator (kept in the class eigenvectors array by the
source; carried in the state here and written back once, with identical final
content), the iteration counter and the convergence flag (lines 132-153). -/
structure SolveState where
  rq : Mat
  vecs : Mat
  iters : ℕ
  converged : Bool

/-- Lines 193-199: the shift actually applied: forced to 0 on the first
iteration, else 99 percent of the computed shift value. -/
def shiftUsed (f : ℕ) (s : SolveState) : D :=
  if s.iters = 0 then some 0 else dmul (computeShiftValue f s.rq) (some (99 / 100))

/-- Lines 201-204: subtract the shift from the diagonal of rq. -/
def shiftedRQ (f : ℕ) (s : SolveState) : Mat :=
  fun r c => if r = c ∧ r < f then dsub (s.rq r c) (shiftUsed f s) else s.rq r c

/-- The Q factor produced by the QR decomposition of the shifted working matrix. -/
def qMat (f : ℕ) (s : SolveState) : Mat := (gramSchmidtQR f (shiftedRQ f s)).1

/-- The R factor produced by the QR decomposition of the shifted working matrix. -/
def rMat (f : ℕ) (s : SolveState) : Mat := (gramSchmidtQR f (shiftedRQ f s)).2.1

/-- Lines 238-257: the eigenvector accumulator is right-multiplied by Q
(computed in full into a temporary, then copied back). -/
def stepVecs (f : ℕ) (s : SolveState) : Mat :=
  fun row col =>
    if row < f ∧ col < f then
      dsum ((List.range f).map fun k => dmul (s.vecs row k) (qMat f s k col))
    else s.vecs row col

/-- Lines 259-267: the working matrix is recomposed as R * Q (entries outside
the features range keep the values left by the decomposition). -/
def stepRQpre (f : ℕ) (s : SolveState) : Mat :=
  fun row col =>
    if row < f ∧ col < f then
      dsum ((List.range f).map fun k => dmul (rMat f s row k) (qMat f s k col))
    else shiftedRQ f s row col

/-- Lines 269-272: the shift is added back to the diagonal. -/
def stepRQ (f : ℕ) (s : SolveState) : Mat :=
  fun r c => if r = c ∧ r < f then dadd (stepRQpre f s r c) (shiftUsed f s) else stepRQpre f s r c

/-- Lines 274-282: convergence = every strictly-sub-diagonal entry of the new rq
has magnitude below the threshold (rows 0 and empty inner ranges are vacuous,
exactly as the source loop starting at row 1). -/
def stepConverged (f : ℕ) (s : SolveState) : Bool :=
  (List.range f).all fun row =>
    (List.range row).all fun col => dlt (dabs (stepRQ f s row col)) dThr

/-- One full iteration of the while loop body (lines 154-284): shift, QR
decomposition, eigenvector accumulation, recomposition, un-shift, convergence
check, counter increment. -/
def solveStep (f : ℕ) (s : SolveState) : SolveState :=
  { rq := stepRQ f s
    vecs := stepVecs f s
    iters := s.iters + 1
    converged := stepConverged f s }

/-- Lines 129-153: per-matrix initialization: rq is a copy of the covariance
matrix of batch entry m, the accumulator starts as the identity, the counter at
zero, converged at false. -/
def initState (p : GoldenPCA) (m : ℕ) : SolveState where
  rq := fun r c => p.covarianceMatrix m r c
  vecs := fun r c => if r = c then some 1 else some 0
  iters := 0
  converged := false

/-- The while loop of lines 154-289, fuel-indexed: the loop head tests
converged; after the body, if iterations > features*features*16 and benchmark
mode is off, the loop breaks (returning the current, possibly unconverged,
state).  none means the fuel ran out before the loop exited; the C++ loop has no
own bound in benchmark mode, so termination claims quantify over fuel. -/
def solveLoop (f : ℕ) (bench : Bool) : ℕ → SolveState → Option SolveState
  | 0, s => if s.converged then some s else none
  | fuel + 1, s =>
    if s.converged then some s
    else
      let s' := solveStep f s
      if f * f * 16 < s'.iters ∧ bench = false then some s'
      else solveLoop f bench fuel s'

/-- The per-matrix tail of ComputeEigenValuesAndVectors (lines 291-312): record
the iteration count (converted to T), the eigenvalues from the diagonal of the
final rq (eigenvalues[k + m*features] = rq[k + features*k]) and the final
accumulator as the eigenvectors of batch entry m.  This writeback happens
whether or not the loop converged. -/
def solveMatrix (p : GoldenPCA) (m fuel : ℕ) : Option GoldenPCA :=
  match solveLoop p.features p.benchmarkMode fuel (initState p m) with
  | none => none
  | some s =>
    some { p with
      eigenvalues := fun m' k =>
        if m' = m ∧ k < p.features then s.rq k k else p.eigenvalues m' k
      eigenvectors := fun m' r c =>
        if m' = m ∧ r < p.features ∧ c < p.features then s.vecs r c
        else p.eigenvectors m' r c
      iterations := fun m' => if m' = m then some (s.iters : ℝ) else p.iterations m' }

/-- GoldenPCA::ComputeEigenValuesAndVectors (lines 118-314): solve every batch
entry in order.  The same fuel is offered to every entry; none propagates when
one entry's loop does not exit within the fuel. -/
def computeEigenValuesAndVectors (fuel : ℕ) (p : GoldenPCA) : Option GoldenPCA :=
  (List.range p.matrixCount).foldl (fun acc m => acc.bind fun q => solveMatrix q m fuel) (some p)

/-- The all-zero input sample matrix. -/
def zeroInput : ℕ → ℕ → ℝ := fun _ _ => 0

/-- Batch of one 2x2 sample matrix of zeros, normal (non-benchmark) mode, as
constructed. -/
def CZ2 : GoldenPCA := construct 2 2 1 false false zeroInput

/-- The zero 2x2 batch after the covariance stage: its covariance matrix is the
zero matrix. -/
def PZ2 : GoldenPCA := computeCovarianceMatrix CZ2

/-- The same zero batch in benchmark mode, after the covariance stage. -/
def PZ2B : GoldenPCA := computeCovarianceMatrix (construct 2 2 1 false true zeroInput)

/-- Batch of one 1x1 zero sample matrix, normal mode, after the covariance
stage. -/
def PZ1 : GoldenPCA := computeCovarianceMatrix (construct 1 1 1 false false zeroInput)

/-- A concrete symmetric 3x3 matrix [[2,0,1],[0,3,0],[1,0,3]] whose trailing
submatrix at the shift row has a = c = 3 and b = 0. -/
def rq3 : Mat := fun r c =>
  if r = 0 ∧ c = 0 then some 2
  else if (r = 0 ∧ c = 2) ∨ (r = 2 ∧ c = 0) then some 1
  else if r = c ∧ r < 3 then some 3
  else some 0

/-- A concrete finite 2x2 working matrix [[1,0],[1,2]] whose sub-diagonal entry
has magnitude 1, so the shift step is reached. -/
def wrq2 : Mat := fun r c =>
  if r = 0 ∧ c = 0 then some 1
  else if r = 1 ∧ c = 0 then some 1
  else if r = 1 ∧ c = 1 then some 2
  else some 0

end

section Lemmas

@[simp] theorem dadd_some_some (a b : ℝ) : dadd (some a) (some b) = some (a + b) := rfl

@[simp] theorem dadd_none_left (x : D) : dadd none x = none := rfl

@[simp] theorem dadd_none_right (x : D) : dadd x none = none := by cases x <;> rfl

@[simp] theorem dsub_some_some (a b : ℝ) : dsub (some a) (some b) = some (a - b) := rfl

@[simp] theorem dsub_none_left (x : D) : dsub none x = none := rfl

@[simp] theorem dsub_none_right (x : D) : dsub x none = none := by cases x <;> rfl

@[simp] theorem dmul_some_some (a b : ℝ) : dmul (some a) (some b) = some (a * b) := rfl

@[simp] theorem dmul_none_left (x : D) : dmul none x = none := rfl

@[simp] theorem dmul_none_right (x : D) : dmul x none = none := by cases x <;> rfl

@[simp] theorem dneg_some (a : ℝ) : dneg (some a) = some (-a) := rfl

@[simp] theorem dabs_some (a : ℝ) : dabs (some a) = some |a| := rfl

@[simp] theorem dabs_none : dabs none = none := rfl

@[simp] theorem ddiv_none_left (x : D) : ddiv none x = none := rfl

@[simp] theorem ddiv_none_right (x : D) : ddiv x none = none := by cases x <;> rfl

theorem ddiv_some_some (a b : ℝ) : ddiv (some a) (some b) = if b = 0 then none else some (a / b) := rfl

@[simp] theorem ddiv_some_zero (a : ℝ) : ddiv (some a) (some 0) = none := by
  simp [ddiv_some_some]

theorem ddiv_some_ne (a b : ℝ) (hb : b ≠ 0) : ddiv (some a) (some b) = some (a / b) := by
  simp [ddiv_some_some, hb]

@[simp] theorem dsqrt_none : dsqrt none = none := rfl

theorem dsqrt_some (a : ℝ) : dsqrt (some a) = if a < 0 then none else some (Real.sqrt a) := rfl

theorem dsqrt_nonneg (a : ℝ) (h : 0 ≤ a) : dsqrt (some a) = some (Real.sqrt a) := by
  simp [dsqrt_some, not_lt.mpr h]

@[simp] theorem dsqrt_zero : dsqrt (some 0) = some 0 := by
  simp [dsqrt_some, Real.sqrt_zero]

@[simp] theorem dlt_none_left (x : D) : dlt none x = false := rfl

@[simp] theorem dlt_none_right (x : D) : dlt x none = false := by cases x <;> rfl

theorem dlt_some_some (a b : ℝ) : dlt (some a) (some b) = decide (a < b) := rfl

theorem dlt_true (a b : ℝ) (h : a < b) : dlt (some a) (some b) = true := by
  simp [dlt_some_some, h]

theorem dlt_false (a b : ℝ) (h : ¬a < b) : dlt (some a) (some b) = false := by
  simp [dlt_some_some, h]

theorem dmul_comm (x y : D) : dmul x y = dmul y x := by
  cases x <;> cases y <;> simp [mul_comm]

@[simp] theorem dsum_nil : dsum [] = some 0 := rfl

theorem dsum_cons_foldl (x : D) (l : List D) : dsum (x :: l) = l.foldl dadd (dadd (some 0) x) := rfl

/-- Accumulating a list that contains none anywhere yields none: dadd absorbs
none on both sides. -/
theorem foldl_dadd_none (l : List D) : l.foldl dadd none = none := by
  induction l with
  | nil => rfl
  | cons x xs ih => simpa using ih

/-- A finite-valued accumulation is the exact sum. -/
theorem foldl_dadd_some (l : List ℝ) (a : ℝ) :
    (l.map some).foldl dadd (some a) = some (a + l.sum) := by
  induction l generalizing a with
  | nil => simp
  | cons x xs ih => simp [ih, add_assoc]

theorem dsum_map_some (l : List ℝ) : dsum (l.map some) = some l.sum := by
  simpa using foldl_dadd_some l 0

theorem list_range_map_sum (g : ℕ → ℝ) (n : ℕ) :
    ((List.range n).map g).sum = ∑ k ∈ Finset.range n, g k := by
  induction n with
  | zero => simp
  | succ n ih => simp [List.range_succ, Finset.sum_range_succ, ih]

/-- The dot-product accumulation over finite values is the exact sum of
products. -/
theorem dotProduct_eq_sum (n : ℕ) (x y : ℕ → ℝ) :
    dotProduct n (fun k => some (x k)) (fun k => some (y k)) =
      some (∑ k ∈ Finset.range n, x k * y k) := by
  have h1 : ((List.range n).map fun k => dmul (some (x k)) (some (y k))) =
      ((List.range n).map fun k => x k * y k).map some := by
    simp [List.map_map, Function.comp]
  rw [dotProduct, h1, dsum_map_some, list_range_map_sum]

end Lemmas

section Covariance

theorem covIth_features (p : GoldenPCA) (m : ℕ) :
    (computeCovarianceIthMatrix p m).features = p.features := rfl

theorem covIth_aMatrix (p : GoldenPCA) (m : ℕ) :
    (computeCovarianceIthMatrix p m).aMatrix = p.aMatrix := rfl

theorem covFold_samples (l : List ℕ) (p : GoldenPCA) :
    (l.foldl computeCovarianceIthMatrix p).samples = p.samples := by
  induction l generalizing p with
  | nil => rfl
  | cons a l ih => exact ih _

theorem covFold_features (l : List ℕ) (p : GoldenPCA) :
    (l.foldl computeCovarianceIthMatrix p).features = p.features := by
  induction l generalizing p with
  | nil => rfl
  | cons a l ih => exact ih _

theorem covFold_aMatrix (l : List ℕ) (p : GoldenPCA) :
    (l.foldl computeCovarianceIthMatrix p).aMatrix = p.aMatrix := by
  induction l generalizing p with
  | nil => rfl
  | cons a l ih => exact ih _

/-- Batch entries not in the processed index list keep their covariance
entries. -/
theorem covFold_untouched (l : List ℕ) (p : GoldenPCA) (m row col : ℕ) (hm : m ∉ l) :
    (l.foldl computeCovarianceIthMatrix p).covarianceMatrix m row col =
      p.covarianceMatrix m row col := by
  induction l generalizing p with
  | nil => rfl
  | cons a l ih =>
    have hma : m ≠ a := fun h => hm (h ▸ List.mem_cons_self a l)
    have hml : m ∉ l := fun h => hm (List.mem_cons_of_mem a h)
    rw [List.foldl_cons, ih _ hml]
    simp [computeCovarianceIthMatrix, hma]

/-- After the batch fold, the covariance entry of a processed batch entry is the
dot product of the corresponding sample columns. -/
theorem covFold_entry (l : List ℕ) (p : GoldenPCA) (m row col : ℕ)
    (hm : m ∈ l) (hrow : row < p.features) (hcol : col < p.features) :
    (l.foldl computeCovarianceIthMatrix p).covarianceMatrix m row col =
      dotProduct p.samples (fun k => p.aMatrix m k row) (fun k => p.aMatrix m k col) := by
  induction l generalizing p with
  | nil => cases hm
  | cons a l ih =>
    rw [List.foldl_cons]
    by_cases hml : m ∈ l
    · rw [ih _ hml (by simpa [covIth_features] using hrow) (by simpa [covIth_features] using hcol)]
      rfl
    · have hma : m = a := by
        rcases List.mem_cons.mp hm with h | h
        · exact h
        · exact absurd h hml
      subst hma
      rw [covFold_untouched _ _ _ _ _ hml]
      simp [computeCovarianceIthMatrix, hrow, hcol]

theorem dotProduct_comm (n : ℕ) (x y : ℕ → D) :
    dotProduct n x y = dotProduct n y x := by
  unfold dotProduct
  congr 1
  apply List.map_congr_left
  intro k _
  exact dmul_comm _ _

end Covariance

/-- Claim C1 (code bug): the constructor is supposed to fill all matrixCount
batch entries of the internal storage, but its copy loop only writes the flat
indices of batch entry 0; with samples = features = 1, matrixCount = 2 and the
input value 5, batch entry 0 holds 5 while batch entry 1 is left at its zero
initialization instead of holding input data. -/
theorem c1_constructor_copies_only_first :
    (construct 1 1 2 false false fun _ _ => 5).aMatrix 0 0 0 = some 5 ∧
    (construct 1 1 2 false false fun _ _ => 5).aMatrix 1 0 0 = some 0 ∧
    (5 : ℝ) ≠ 0 := by
  refine ⟨by simp [construct], by simp [construct], by norm_num⟩

/-- Claim C5 (confirmed): for a sample matrix with samples >= 1 and
features >= 1 whose stored entries are the finite values a, the covariance entry
at (row, col) is exactly the dot product of sample-matrix column row with column
col; the accumulation is the exact (double-precision in the source) sum, and no
normalization by degrees of freedom is applied. -/
theorem c5_covariance_entry (p : GoldenPCA) (m row col : ℕ) (a : ℕ → ℕ → ℝ)
    (hs : 1 ≤ p.samples) (hf : 1 ≤ p.features)
    (ha : ∀ k j, p.aMatrix m k j = some (a k j))
    (hrow : row < p.features) (hcol : col < p.features) :
    (computeCovarianceIthMatrix p m).covarianceMatrix m row col =
      some (∑ k ∈ Finset.range p.samples, a k row * a k col) := by
  have hx : (fun k => p.aMatrix m k row) = fun k => some (a k row) :=
    funext fun k => ha k row
  have hy : (fun k => p.aMatrix m k col) = fun k => some (a k col) :=
    funext fun k => ha k col
  have hentry : (computeCovarianceIthMatrix p m).covarianceMatrix m row col =
      dotProduct p.samples (fun k => p.aMatrix m k row) (fun k => p.aMatrix m k col) := by
    simp [computeCovarianceIthMatrix, hrow, hcol]
  rw [hentry, hx, hy, dotProduct_eq_sum]

/-- Witness for C5 at the concrete zero 2x2 batch. -/
theorem c5_covariance_entry_witness :
    1 ≤ CZ2.samples ∧ 1 ≤ CZ2.features ∧
    (computeCovarianceIthMatrix CZ2 0).covarianceMatrix 0 0 1 =
      some (∑ k ∈ Finset.range CZ2.samples, zeroInput k 0 * zeroInput k 1) := by
  refine ⟨by norm_num [CZ2, construct], by norm_num [CZ2, construct],
    c5_covariance_entry CZ2 0 0 1 zeroInput (by norm_num [CZ2, construct])
      (by norm_num [CZ2, construct]) ?_ (by norm_num [CZ2, construct])
      (by norm_num [CZ2, construct])⟩
  intro k j
  simp [CZ2, construct, zeroInput]

/-- Claim C6 (confirmed): every covariance matrix produced by the covariance
stage is exactly symmetric: entries (i, j) and (j, i) accumulate the same
per-sample products (commuted termwise, exact in IEEE) in the same order. -/
theorem c6_covariance_symmetric (p : GoldenPCA) (m i j : ℕ)
    (hm : m < p.matrixCount) (hi : i < p.features) (hj : j < p.features) :
    (computeCovarianceMatrix p).covarianceMatrix m i j =
      (computeCovarianceMatrix p).covarianceMatrix m j i := by
  rw [computeCovarianceMatrix, covFold_entry _ _ _ _ _ (List.mem_range.mpr hm) hi hj,
    covFold_entry _ _ _ _ _ (List.mem_range.mpr hm) hj hi, dotProduct_comm]

/-- Witness for C6 at the concrete zero 2x2 batch, off-diagonal pair (0,1). -/
theorem c6_covariance_symmetric_witness :
    0 < CZ2.matrixCount ∧
    (computeCovarianceMatrix CZ2).covarianceMatrix 0 0 1 =
      (computeCovarianceMatrix CZ2).covarianceMatrix 0 1 0 :=
  ⟨by norm_num [CZ2, construct],
    c6_covariance_symmetric CZ2 0 0 1 (by norm_num [CZ2, construct])
      (by norm_num [CZ2, construct]) (by norm_num [CZ2, construct])⟩

section LoopBasics

theorem solveStep_iters (f : ℕ) (s : SolveState) : (solveStep f s).iters = s.iters + 1 := rfl

theorem solveLoop_zero (f : ℕ) (bench : Bool) (s : SolveState) :
    solveLoop f bench 0 s = if s.converged then some s else none := rfl

theorem solveLoop_succ (f : ℕ) (bench : Bool) (fuel : ℕ) (s : SolveState) :
    solveLoop f bench (fuel + 1) s =
      if s.converged then some s
      else if f * f * 16 < (solveStep f s).iters ∧ bench = false then some (solveStep f s)
      else solveLoop f bench fuel (solveStep f s) := rfl

/-- The loop never decreases the iteration counter. -/
theorem solveLoop_iters_mono (f : ℕ) (bench : Bool) :
    ∀ (fuel : ℕ) (s res : SolveState), solveLoop f bench fuel s = some res →
      s.iters ≤ res.iters := by
  intro fuel
  induction fuel with
  | zero =>
    intro s res h
    rw [solveLoop_zero] at h
    by_cases hc : s.converged
    · rw [if_pos hc] at h
      rw [← Option.some_injective _ h]
    · simp [hc] at h
  | succ fuel ih =>
    intro s res h
    rw [solveLoop_succ] at h
    by_cases hc : s.converged
    · rw [if_pos hc] at h
      rw [← Option.some_injective _ h]
    · rw [if_neg hc] at h
      by_cases hb : f * f * 16 < (solveStep f s).iters ∧ bench = false
      · rw [if_pos hb] at h
        have hr : res = solveStep f s := (Option.some_injective _ h).symm
        rw [hr, solveStep_iters]
        omega
      · rw [if_neg hb] at h
        have := ih _ _ h
        rw [solveStep_iters] at this
        omega

/-- A loop exit from a not-yet-converged state records at least one iteration:
the body always runs once before the first convergence check. -/
theorem solveLoop_one_le (f : ℕ) (bench : Bool) (fuel : ℕ) (s res : SolveState)
    (hc : s.converged = false) (h : solveLoop f bench fuel s = some res) :
    1 ≤ res.iters := by
  cases fuel with
  | zero => rw [solveLoop_zero, hc] at h; simp at h
  | succ fuel =>
    rw [solveLoop_succ, hc] at h
    simp only [Bool.false_eq_true, if_false] at h
    by_cases hb : f * f * 16 < (solveStep f s).iters ∧ bench = false
    · rw [if_pos hb] at h
      have : res = solveStep f s := (Option.some_injective _ h).symm
      rw [this, solveStep_iters]
      omega
    · rw [if_neg hb] at h
      have := solveLoop_iters_mono f bench fuel _ _ h
      rw [solveStep_iters] at this
      omega

/-- Outside benchmark mode the loop always exits once the fuel covers the
iteration bound: the counter increases by one per iteration and the bound check
aborts as soon as it exceeds features*features*16. -/
theorem solveLoop_isSome (f : ℕ) :
    ∀ (fuel : ℕ) (s : SolveState), s.iters ≤ f * f * 16 → f * f * 16 < s.iters + fuel →
      (solveLoop f false fuel s).isSome := by
  intro fuel
  induction fuel with
  | zero => intro s h1 h2; omega
  | succ fuel ih =>
    intro s h1 h2
    rw [solveLoop_succ]
    by_cases hc : s.converged
    · simp [hc]
    · rw [if_neg (by simp [hc])]
      by_cases hb : f * f * 16 < (solveStep f s).iters
      · rw [if_pos ⟨hb, rfl⟩]
        simp
      · rw [if_neg (by simp [hb])]
        rw [solveStep_iters] at hb
        refine ih (solveStep f s) ?_ ?_ <;> rw [solveStep_iters] <;> omega

/-- Outside benchmark mode the recorded counter never exceeds the bound plus
one: the loop body that pushes the counter past the bound is the last to run
(the counter of every state entering the loop head is at most the bound). -/
theorem solveLoop_iters_le (f : ℕ) :
    ∀ (fuel : ℕ) (s res : SolveState), s.iters ≤ f * f * 16 →
      solveLoop f false fuel s = some res → res.iters ≤ f * f * 16 + 1 := by
  intro fuel
  induction fuel with
  | zero =>
    intro s res hin h
    rw [solveLoop_zero] at h
    by_cases hc : s.converged
    · rw [if_pos hc] at h
      rw [← Option.some_injective _ h]
      omega
    · simp [hc] at h
  | succ fuel ih =>
    intro s res hin h
    rw [solveLoop_succ] at h
    by_cases hc : s.converged
    · rw [if_pos hc] at h
      rw [← Option.some_injective _ h]
      omega
    · rw [if_neg hc] at h
      by_cases hb : f * f * 16 < (solveStep f s).iters
      · rw [if_pos ⟨hb, rfl⟩] at h
        have hr : res = solveStep f s := (Option.some_injective _ h).symm
        rw [hr, solveStep_iters]
        omega
      · rw [if_neg (by simp [hb])] at h
        rw [solveStep_iters] at hb
        exact ih _ _ (by rw [solveStep_iters]; omega) h

theorem initState_iters (p : GoldenPCA) (m : ℕ) : (initState p m).iters = 0 := rfl

theorem initState_converged (p : GoldenPCA) (m : ℕ) : (initState p m).converged = false := rfl

/-- Outside benchmark mode a single matrix solve returns within fuel
features*features*16 + 1. -/
theorem solveMatrix_isSome (p : GoldenPCA) (m fuel : ℕ)
    (hb : p.benchmarkMode = false) (hfuel : p.features * p.features * 16 < fuel) :
    (solveMatrix p m fuel).isSome := by
  rw [solveMatrix, hb]
  have h := solveLoop_isSome p.features fuel (initState p m)
    (by rw [initState_iters]; omega) (by rw [initState_iters]; omega)
  obtain ⟨s, hs⟩ := Option.isSome_iff_exists.mp h
  rw [hs]
  simp

theorem solveMatrix_features (p : GoldenPCA) (m fuel : ℕ) (q : GoldenPCA)
    (h : solveMatrix p m fuel = some q) : q.features = p.features := by
  rw [solveMatrix] at h
  cases hl : solveLoop p.features p.benchmarkMode fuel (initState p m) with
  | none => rw [hl] at h; cases h
  | some s =>
    rw [hl] at h
    have := (Option.some_injective _ h).symm
    rw [this]

theorem solveMatrix_benchmarkMode (p : GoldenPCA) (m fuel : ℕ) (q : GoldenPCA)
    (h : solveMatrix p m fuel = some q) : q.benchmarkMode = p.benchmarkMode := by
  rw [solveMatrix] at h
  cases hl : solveLoop p.features p.benchmarkMode fuel (initState p m) with
  | none => rw [hl] at h; cases h
  | some s =>
    rw [hl] at h
    have := (Option.some_injective _ h).symm
    rw [this]

/-- Outside benchmark mode the whole batch solve returns, given fuel above the
iteration bound. -/
theorem eigenFold_isSome :
    ∀ (l : List ℕ) (p : GoldenPCA) (fuel : ℕ), p.benchmarkMode = false →
      p.features * p.features * 16 < fuel →
      (l.foldl (fun acc m => acc.bind fun q => solveMatrix q m fuel) (some p)).isSome := by
  intro l
  induction l with
  | nil => intro p fuel _ _; simp
  | cons a l ih =>
    intro p fuel hb hfuel
    rw [List.foldl_cons]
    have h1 := solveMatrix_isSome p a fuel hb hfuel
    obtain ⟨q, hq⟩ := Option.isSome_iff_exists.mp h1
    have hqb : q.benchmarkMode = false := by rw [solveMatrix_benchmarkMode p a fuel q hq, hb]
    have hqf : q.features = p.features := solveMatrix_features p a fuel q hq
    have : (some p).bind (fun q => solveMatrix q a fuel) = some q := by simpa using hq
    rw [this]
    exact ih q fuel hqb (by rw [hqf]; exact hfuel)

end LoopBasics

theorem PZ1_benchmarkMode : PZ1.benchmarkMode = false := rfl

theorem PZ1_features : PZ1.features = 1 := rfl

/-- Claim C2, amended (corrected): outside benchmark mode the recorded
per-matrix iteration count never exceeds features*features*16 + 1; the bound
features*features*16 itself can be exceeded by one, because the loop increments
the counter past the bound before aborting.  -/
theorem c2_iterations_le (p : GoldenPCA) (m fuel : ℕ) (q : GoldenPCA)
    (hb : p.benchmarkMode = false) (hq : solveMatrix p m fuel = some q) :
    ∃ n : ℕ, q.iterations m = some (n : ℝ) ∧ n ≤ p.features * p.features * 16 + 1 := by
  rw [solveMatrix, hb] at hq
  cases hl : solveLoop p.features false fuel (initState p m) with
  | none => rw [hl] at hq; cases hq
  | some s =>
    rw [hl] at hq
    have hqe : q = _ := (Option.some_injective _ hq).symm
    refine ⟨s.iters, ?_, ?_⟩
    · rw [hqe]
      simp
    · exact solveLoop_iters_le p.features fuel _ _ (by rw [initState_iters]; omega) hl

/-- Witness for the amended C2 at the concrete 1x1 zero batch. -/
theorem c2_iterations_le_witness :
    ∃ (q : GoldenPCA) (n : ℕ), solveMatrix PZ1 0 17 = some q ∧
      q.iterations 0 = some (n : ℝ) ∧ n ≤ PZ1.features * PZ1.features * 16 + 1 := by
  have h := solveMatrix_isSome PZ1 0 17 PZ1_benchmarkMode (by rw [PZ1_features]; norm_num)
  obtain ⟨q, hq⟩ := Option.isSome_iff_exists.mp h
  obtain ⟨n, h1, h2⟩ := c2_iterations_le PZ1 0 17 q PZ1_benchmarkMode hq
  exact ⟨q, n, hq, h1, h2⟩

/-- Claim C4, amended, positive half (corrected): outside benchmark mode the
whole eigen solve terminates for every input, by convergence or by the
iteration bound, within features*features*16 + 1 loop iterations per matrix. -/
theorem c4_terminates_non_benchmark (p : GoldenPCA) (fuel : ℕ)
    (hb : p.benchmarkMode = false) (hfuel : p.features * p.features * 16 < fuel) :
    (computeEigenValuesAndVectors fuel p).isSome := by
  rw [computeEigenValuesAndVectors]
  exact eigenFold_isSome _ p fuel hb hfuel

/-- Witness for C4 at the concrete 1x1 zero batch. -/
theorem c4_terminates_non_benchmark_witness :
    PZ1.benchmarkMode = false ∧ (computeEigenValuesAndVectors 17 PZ1).isSome :=
  ⟨PZ1_benchmarkMode,
    c4_terminates_non_benchmark PZ1 17 PZ1_benchmarkMode (by rw [PZ1_features]; norm_num)⟩

/-- Claim C9 (confirmed): every exit of the solve loop records at least one
iteration (the body runs before the first convergence check), and the shift
applied on that first iteration is forced to zero. -/
theorem c9_at_least_one_iteration (p : GoldenPCA) (m fuel : ℕ) (res : SolveState)
    (h : solveLoop p.features p.benchmarkMode fuel (initState p m) = some res) :
    1 ≤ res.iters ∧ shiftUsed p.features (initState p m) = some 0 :=
  ⟨solveLoop_one_le _ _ _ _ _ (initState_converged p m) h,
    by rw [shiftUsed, initState_iters]; simp⟩

/-- Witness for C9 at the concrete 1x1 zero batch (a diagonal covariance
matrix). -/
theorem c9_at_least_one_iteration_witness :
    ∃ res, solveLoop PZ1.features PZ1.benchmarkMode 17 (initState PZ1 0) = some res ∧
      1 ≤ res.iters ∧ shiftUsed PZ1.features (initState PZ1 0) = some 0 := by
  have h := solveLoop_isSome PZ1.features 17 (initState PZ1 0)
    (by rw [initState_iters]; omega) (by rw [initState_iters, PZ1_features]; norm_num)
  obtain ⟨res, hres⟩ := Option.isSome_iff_exists.mp h
  have hres' : solveLoop PZ1.features PZ1.benchmarkMode 17 (initState PZ1 0) = some res := by
    rw [PZ1_benchmarkMode]
    exact hres
  exact ⟨res, hres', c9_at_least_one_iteration PZ1 0 17 res hres'⟩

/-- Claim C7 (confirmed): when the loop exits without convergence (the bound
aborted it), the solve still returns normally, reporting the diagonal of the
current working matrix as eigenvalues, the current accumulator as eigenvectors
and the iteration count, exactly as in the converged case. -/
theorem c7_unconverged_result (p : GoldenPCA) (m fuel : ℕ) (res : SolveState)
    (h : solveLoop p.features p.benchmarkMode fuel (initState p m) = some res)
    (hnc : res.converged = false) :
    ∃ q, solveMatrix p m fuel = some q ∧
      (∀ k, k < p.features → q.eigenvalues m k = res.rq k k) ∧
      (∀ r c, r < p.features → c < p.features → q.eigenvectors m r c = res.vecs r c) ∧
      q.iterations m = some (res.iters : ℝ) := by
  have hq : solveMatrix p m fuel = some { p with
      eigenvalues := fun m' k =>
        if m' = m ∧ k < p.features then res.rq k k else p.eigenvalues m' k
      eigenvectors := fun m' r c =>
        if m' = m ∧ r < p.features ∧ c < p.features then res.vecs r c
        else p.eigenvectors m' r c
      iterations := fun m' => if m' = m then some (res.iters : ℝ) else p.iterations m' } := by
    rw [solveMatrix, h]
  refine ⟨_, hq, ?_, ?_, ?_⟩
  · intro k hk
    simp [hk]
  · intro r c hr hc
    simp [hr, hc]
  · simp

section GramSchmidtTwo

theorem range_two : List.range 2 = [0, 1] := rfl

theorem range'_one_one : List.range' 1 1 = [1] := rfl

theorem range'_two_zero : List.range' 2 0 = [] := rfl

/-- For features = 2 the Gram-Schmidt fold visits columns 0 then 1. -/
theorem gsQR_two (A : Mat) :
    gramSchmidtQR 2 A =
      gsOuter 2 (gsOuter 2 ((fun _ _ => some 0), (fun _ _ => some 0), A) 0) 1 := by
  rw [gramSchmidtQR, range_two]
  rfl

/-- Column i of Q is the current working column i divided by the square root of
its own norm (no guard against a zero or NaN norm). -/
theorem gsOuter_q_self (f : ℕ) (st : Mat × Mat × Mat) (i k : ℕ) (hk : k < f) :
    (gsOuter f st i).1 k i = ddiv (st.2.2 k i) (dsqrt (colNorm f st.2.2 i)) := by
  simp [gsOuter, hk]

theorem gsOuter_q_other (f : ℕ) (st : Mat × Mat × Mat) (i k c : ℕ) (hc : c ≠ i) :
    (gsOuter f st i).1 k c = st.1 k c := by
  simp [gsOuter, hc]

/-- For features = 2, the working matrix after the column-0 outer step: column 1
had the projection on q-column-0 removed, column 0 is untouched. -/
theorem gsOuter2_zero_rq (st : Mat × Mat × Mat) (k c : ℕ) :
    (gsOuter 2 st 0).2.2 k c =
      if c = 1 ∧ k < 2 then
        dsub (st.2.2 k c)
          (dmul (gsDot 2 (gsOuter 2 st 0).1 0 st.2.2 1) ((gsOuter 2 st 0).1 k 0))
      else st.2.2 k c := by
  show ((List.range' 1 (2 - 1)).foldl (gsInner 2 0 _) (_, st.2.2)).2 k c = _
  rw [show (2 : ℕ) - 1 = 1 from rfl, range'_one_one]
  simp only [List.foldl_cons, List.foldl_nil, gsInner]
  rcases st with ⟨q0, r0, rq0⟩
  by_cases h : c = 1 ∧ k < 2
  · rw [if_pos h, if_pos h]
    simp [gsOuter]
  · rw [if_neg h, if_neg h]

end GramSchmidtTwo

section ColumnNaN

theorem gs2_qcol0_eq (A : Mat) (k : ℕ) (hk : k < 2) :
    (gramSchmidtQR 2 A).1 k 0 = ddiv (A k 0) (dsqrt (colNorm 2 A 0)) := by
  rw [gsQR_two, gsOuter_q_other 2 _ 1 k 0 (by norm_num), gsOuter_q_self 2 _ 0 k hk]

theorem gs2_qcol1_eq (A : Mat) (k : ℕ) (hk : k < 2) :
    (gramSchmidtQR 2 A).1 k 1 =
      ddiv ((gsOuter 2 ((fun _ _ => some 0), (fun _ _ => some 0), A) 0).2.2 k 1)
        (dsqrt (colNorm 2 (gsOuter 2 ((fun _ _ => some 0), (fun _ _ => some 0), A) 0).2.2 1)) := by
  rw [gsQR_two, gsOuter_q_self 2 _ 1 k hk]

/-- A NaN anywhere in column 0 poisons the norm, so the whole Q column 0 is
NaN. -/
theorem gs2_qcol0_none_of_colnone (A : Mat) (h : A 0 0 = none ∨ A 1 0 = none) :
    ∀ k, k < 2 → (gramSchmidtQR 2 A).1 k 0 = none := by
  intro k hk
  rw [gs2_qcol0_eq A k hk]
  have hnorm : colNorm 2 A 0 = none := by
    rcases h with h | h <;> simp [colNorm, dsum, range_two, h]
  rw [hnorm]
  simp

/-- A finite column 0 with zero norm: the normalization divides by
sqrt 0 = 0, so the whole Q column 0 is NaN. -/
theorem gs2_qcol0_none_of_zero_norm (A : Mat) (x y : ℝ)
    (h0 : A 0 0 = some x) (h1 : A 1 0 = some y) (hxy : x * x + y * y = 0) :
    ∀ k, k < 2 → (gramSchmidtQR 2 A).1 k 0 = none := by
  intro k hk
  rw [gs2_qcol0_eq A k hk]
  have hnorm : colNorm 2 A 0 = some 0 := by
    simp [colNorm, dsum, range_two, h0, h1]
    linarith
  rw [hnorm, dsqrt_zero]
  interval_cases k
  · rw [h0]; simp
  · rw [h1]; simp

/-- Once Q column 0 is NaN, the projection step poisons the working column 1,
hence Q column 1 is NaN too. -/
theorem gs2_qcol1_none_of_qcol0 (A : Mat)
    (h : ∀ k, k < 2 → ddiv (A k 0) (dsqrt (colNorm 2 A 0)) = none) :
    ∀ k, k < 2 → (gramSchmidtQR 2 A).1 k 1 = none := by
  intro k hk
  rw [gs2_qcol1_eq A k hk]
  have hq1 : ∀ k', k' < 2 →
      (gsOuter 2 ((fun _ _ => some 0), (fun _ _ => some 0), A) 0).1 k' 0 = none := by
    intro k' hk'
    rw [gsOuter_q_self 2 _ 0 k' hk']
    exact h k' hk'
  have hrq : ∀ k', k' < 2 →
      (gsOuter 2 ((fun _ _ => some 0), (fun _ _ => some 0), A) 0).2.2 k' 1 = none := by
    intro k' hk'
    rw [gsOuter2_zero_rq _ k' 1, if_pos ⟨rfl, hk'⟩, hq1 k' hk']
    simp
  rw [hrq k hk]
  simp

/-- The interesting zero-column case: column 1 of the shifted working matrix is
exactly zero while column 0 is finite with nonzero norm.  The projection leaves
column 1 exactly zero, its norm is zero, and the normalization divides 0 by
sqrt 0 = 0: Q column 1 is NaN. -/
theorem gs2_qcol1_none_of_zero_col1 (A : Mat) (x y : ℝ)
    (h00 : A 0 0 = some x) (h10 : A 1 0 = some y) (hxy : x * x + y * y ≠ 0)
    (h01 : A 0 1 = some 0) (h11 : A 1 1 = some 0) :
    ∀ k, k < 2 → (gramSchmidtQR 2 A).1 k 1 = none := by
  have hS : (0:ℝ) ≤ x * x + y * y := add_nonneg (mul_self_nonneg x) (mul_self_nonneg y)
  have hnorm : colNorm 2 A 0 = some (x * x + y * y) := by
    simp [colNorm, dsum, range_two, h00, h10]
  have hsqrt : dsqrt (colNorm 2 A 0) = some (Real.sqrt (x * x + y * y)) := by
    rw [hnorm, dsqrt_nonneg _ hS]
  have hsne : Real.sqrt (x * x + y * y) ≠ 0 := (Real.sqrt_ne_zero hS).mpr hxy
  have hq10 : (gsOuter 2 ((fun _ _ => some 0), (fun _ _ => some 0), A) 0).1 0 0 =
      some (x / Real.sqrt (x * x + y * y)) := by
    rw [gsOuter_q_self 2 _ 0 0 (by norm_num)]
    show ddiv (A 0 0) (dsqrt (colNorm 2 A 0)) = _
    rw [h00, hsqrt, ddiv_some_ne _ _ hsne]
  have hq11 : (gsOuter 2 ((fun _ _ => some 0), (fun _ _ => some 0), A) 0).1 1 0 =
      some (y / Real.sqrt (x * x + y * y)) := by
    rw [gsOuter_q_self 2 _ 0 1 (by norm_num)]
    show ddiv (A 1 0) (dsqrt (colNorm 2 A 0)) = _
    rw [h10, hsqrt, ddiv_some_ne _ _ hsne]
  have hdp : gsDot 2 (gsOuter 2 ((fun _ _ => some 0), (fun _ _ => some 0), A) 0).1 0 A 1 =
      some 0 := by
    simp [gsDot, dsum, range_two, hq10, hq11, h01, h11]
  have hrq0 : (gsOuter 2 ((fun _ _ => some 0), (fun _ _ => some 0), A) 0).2.2 0 1 = some 0 := by
    rw [gsOuter2_zero_rq _ 0 1, if_pos ⟨rfl, by norm_num⟩]
    show dsub (A 0 1)
      (dmul (gsDot 2 (gsOuter 2 ((fun _ _ => some 0), (fun _ _ => some 0), A) 0).1 0 A 1)
        ((gsOuter 2 ((fun _ _ => some 0), (fun _ _ => some 0), A) 0).1 0 0)) = some 0
    rw [hdp, hq10, h01]
    simp
  have hrq1 : (gsOuter 2 ((fun _ _ => some 0), (fun _ _ => some 0), A) 0).2.2 1 1 = some 0 := by
    rw [gsOuter2_zero_rq _ 1 1, if_pos ⟨rfl, by norm_num⟩]
    show dsub (A 1 1)
      (dmul (gsDot 2 (gsOuter 2 ((fun _ _ => some 0), (fun _ _ => some 0), A) 0).1 0 A 1)
        ((gsOuter 2 ((fun _ _ => some 0), (fun _ _ => some 0), A) 0).1 1 0)) = some 0
    rw [hdp, hq11, h11]
    simp
  have hnorm1 : colNorm 2 (gsOuter 2 ((fun _ _ => some 0), (fun _ _ => some 0), A) 0).2.2 1 =
      some 0 := by
    simp [colNorm, dsum, range_two, hrq0, hrq1]
  intro k hk
  rw [gs2_qcol1_eq A k hk, hnorm1, dsqrt_zero]
  interval_cases k
  · rw [hrq0]; simp
  · rw [hrq1]; simp

end ColumnNaN

section ZeroMatrixRun

theorem shiftedRQ_none (f : ℕ) (s : SolveState) (r c : ℕ) (h : s.rq r c = none) :
    shiftedRQ f s r c = none := by
  rw [shiftedRQ]
  split <;> simp [h]

/-- An all-NaN working matrix yields an all-NaN Q factor. -/
theorem qMat2_all_none (s : SolveState)
    (h : ∀ r c, r < 2 → c < 2 → shiftedRQ 2 s r c = none) :
    ∀ k c, k < 2 → c < 2 → qMat 2 s k c = none := by
  have hcol0 := gs2_qcol0_none_of_colnone (shiftedRQ 2 s)
    (Or.inl (h 0 0 (by norm_num) (by norm_num)))
  have hcol1 : ∀ k, k < 2 → (gramSchmidtQR 2 (shiftedRQ 2 s)).1 k 1 = none := by
    apply gs2_qcol1_none_of_qcol0
    intro k hk
    rw [h k 0 hk (by norm_num)]
    simp
  intro k c hk hc
  rw [qMat]
  interval_cases c
  · exact hcol0 k hk
  · exact hcol1 k hk

/-- An exactly zero shifted working matrix yields an all-NaN Q factor: every
column norm is zero and each column is divided by sqrt 0 = 0. -/
theorem qMat2_all_none_of_zero (s : SolveState)
    (h : ∀ r c, r < 2 → c < 2 → shiftedRQ 2 s r c = some 0) :
    ∀ k c, k < 2 → c < 2 → qMat 2 s k c = none := by
  have h00 := h 0 0 (by norm_num) (by norm_num)
  have h10 := h 1 0 (by norm_num) (by norm_num)
  have hcol0 := gs2_qcol0_none_of_zero_norm (shiftedRQ 2 s) 0 0 h00 h10 (by norm_num)
  have hnorm : colNorm 2 (shiftedRQ 2 s) 0 = some 0 := by
    simp [colNorm, dsum, range_two, h00, h10]
  have hcol1 : ∀ k, k < 2 → (gramSchmidtQR 2 (shiftedRQ 2 s)).1 k 1 = none := by
    apply gs2_qcol1_none_of_qcol0
    intro k hk
    rw [hnorm, dsqrt_zero]
    interval_cases k
    · rw [h00]; simp
    · rw [h10]; simp
  intro k c hk hc
  rw [qMat]
  interval_cases c
  · exact hcol0 k hk
  · exact hcol1 k hk

theorem stepRQpre2_none (s : SolveState)
    (hq : ∀ k c, k < 2 → c < 2 → qMat 2 s k c = none) (r c : ℕ) (hr : r < 2) (hc : c < 2) :
    stepRQpre 2 s r c = none := by
  rw [stepRQpre, if_pos ⟨hr, hc⟩]
  simp [range_two, dsum, hq 0 c (by norm_num) hc, hq 1 c (by norm_num) hc]

theorem stepRQ2_none (s : SolveState)
    (hq : ∀ k c, k < 2 → c < 2 → qMat 2 s k c = none) (r c : ℕ) (hr : r < 2) (hc : c < 2) :
    stepRQ 2 s r c = none := by
  rw [stepRQ]
  split <;> simp [stepRQpre2_none s hq r c hr hc]

theorem stepVecs2_none_of_qall (s : SolveState)
    (hq : ∀ k c, k < 2 → c < 2 → qMat 2 s k c = none) (r c : ℕ) (hr : r < 2) (hc : c < 2) :
    stepVecs 2 s r c = none := by
  rw [stepVecs, if_pos ⟨hr, hc⟩]
  simp [range_two, dsum, hq 0 c (by norm_num) hc, hq 1 c (by norm_num) hc]

/-- A NaN Q column makes the corresponding accumulator column NaN. -/
theorem stepVecs2_col_none_of_qcol (s : SolveState) (j : ℕ) (hj : j < 2)
    (hq : ∀ k, k < 2 → qMat 2 s k j = none) (r : ℕ) (hr : r < 2) :
    stepVecs 2 s r j = none := by
  rw [stepVecs, if_pos ⟨hr, hj⟩]
  simp [range_two, dsum, hq 0 (by norm_num), hq 1 (by norm_num)]

/-- A NaN accumulator column makes the whole next accumulator NaN: every new
entry sums a product with the NaN column. -/
theorem stepVecs2_all_none_of_vecscol (s : SolveState) (j : ℕ) (hj : j < 2)
    (hv : ∀ r, r < 2 → s.vecs r j = none) (r c : ℕ) (hr : r < 2) (hc : c < 2) :
    stepVecs 2 s r c = none := by
  rw [stepVecs, if_pos ⟨hr, hc⟩]
  interval_cases j
  · simp [range_two, dsum, hv r hr]
  · simp [range_two, dsum, hv r hr]

/-- A NaN sub-diagonal entry fails the threshold comparison, so convergence is
never signalled. -/
theorem stepConverged2_false (s : SolveState) (h10 : stepRQ 2 s 1 0 = none) :
    stepConverged 2 s = false := by
  rw [stepConverged]
  simp [range_two, h10]

theorem solveStep2_of_qall (s : SolveState)
    (hq : ∀ k c, k < 2 → c < 2 → qMat 2 s k c = none) :
    (∀ r c, r < 2 → c < 2 → (solveStep 2 s).rq r c = none) ∧
    (solveStep 2 s).converged = false ∧
    (∀ r c, r < 2 → c < 2 → (solveStep 2 s).vecs r c = none) :=
  ⟨fun r c hr hc => stepRQ2_none s hq r c hr hc,
    stepConverged2_false s (stepRQ2_none s hq 1 0 (by norm_num) (by norm_num)),
    fun r c hr hc => stepVecs2_none_of_qall s hq r c hr hc⟩

theorem solveStep2_allNone (s : SolveState)
    (h : ∀ r c, r < 2 → c < 2 → s.rq r c = none) :
    (∀ r c, r < 2 → c < 2 → (solveStep 2 s).rq r c = none) ∧
    (solveStep 2 s).converged = false ∧
    (∀ r c, r < 2 → c < 2 → (solveStep 2 s).vecs r c = none) :=
  solveStep2_of_qall s (qMat2_all_none s (fun r c hr hc => shiftedRQ_none 2 s r c (h r c hr hc)))

theorem solveStep2_zero (s : SolveState)
    (h : ∀ r c, r < 2 → c < 2 → shiftedRQ 2 s r c = some 0) :
    (∀ r c, r < 2 → c < 2 → (solveStep 2 s).rq r c = none) ∧
    (solveStep 2 s).converged = false ∧
    (∀ r c, r < 2 → c < 2 → (solveStep 2 s).vecs r c = none) :=
  solveStep2_of_qall s (qMat2_all_none_of_zero s h)

/-- In benchmark mode the loop never exits from an all-NaN, unconverged state:
the convergence test can never pass and the bound is not enforced. -/
theorem solveLoop2_bench_none : ∀ (fuel : ℕ) (s : SolveState),
    (∀ r c, r < 2 → c < 2 → s.rq r c = none) → s.converged = false →
    solveLoop 2 true fuel s = none := by
  intro fuel
  induction fuel with
  | zero =>
    intro s h hc
    rw [solveLoop_zero, hc]
    simp
  | succ fuel ih =>
    intro s h hc
    rw [solveLoop_succ, hc]
    simp only [Bool.false_eq_true, if_false]
    rw [if_neg (by simp)]
    obtain ⟨h1, h2, _⟩ := solveStep2_allNone s h
    exact ih _ h1 h2

/-- Outside benchmark mode an all-NaN unconverged state runs to the abort, with
the counter ending at exactly 65 = 2*2*16 + 1. -/
theorem solveLoop2_zero_run : ∀ (k : ℕ) (s : SolveState),
    (∀ r c, r < 2 → c < 2 → s.rq r c = none) → s.converged = false →
    s.iters ≤ 64 → s.iters + k = 65 →
    ∃ t, solveLoop 2 false k s = some t ∧ t.iters = 65 ∧ t.converged = false ∧
      (∀ r c, r < 2 → c < 2 → t.vecs r c = none) ∧
      (∀ r c, r < 2 → c < 2 → t.rq r c = none) := by
  intro k
  induction k with
  | zero =>
    intro s h hc h1 h2
    omega
  | succ k ih =>
    intro s h hc h1 h2
    rw [solveLoop_succ, hc]
    simp only [Bool.false_eq_true, if_false]
    obtain ⟨hn, hcv, hvv⟩ := solveStep2_allNone s h
    by_cases hend : s.iters = 64
    · have hit : (solveStep 2 s).iters = 65 := by rw [solveStep_iters, hend]
      rw [if_pos ⟨by rw [hit]; norm_num, trivial⟩]
      exact ⟨_, rfl, hit, hcv, hvv, hn⟩
    · rw [if_neg (fun hcon => absurd hcon.1 (by rw [solveStep_iters]; omega))]
      exact ih _ hn hcv (by rw [solveStep_iters]; omega) (by rw [solveStep_iters]; omega)

theorem PZ2_features : PZ2.features = 2 := rfl

theorem PZ2_benchmarkMode : PZ2.benchmarkMode = false := rfl

theorem PZ2B_features : PZ2B.features = 2 := rfl

theorem PZ2B_benchmarkMode : PZ2B.benchmarkMode = true := rfl

theorem PZ2B_matrixCount : PZ2B.matrixCount = 1 := rfl

/-- The covariance stage on one 2x2 all-zero sample matrix produces the zero
covariance matrix. -/
theorem zero22_cov (d bench : Bool) (r c : ℕ) (hr : r < 2) (hc : c < 2) :
    (computeCovarianceMatrix (construct 2 2 1 d bench zeroInput)).covarianceMatrix 0 r c =
      some 0 := by
  rw [computeCovarianceMatrix]
  rw [show (construct 2 2 1 d bench zeroInput).matrixCount = 1 from rfl]
  rw [covFold_entry (List.range 1) _ 0 r c (by simp) hr hc]
  have ha : ∀ k j, (construct 2 2 1 d bench zeroInput).aMatrix 0 k j = some 0 := by
    intro k j
    simp [construct, zeroInput]
  simp [dotProduct, dsum, ha, show (construct 2 2 1 d bench zeroInput).samples = 2 from rfl,
    range_two]

/-- First-iteration shifted working matrix for a zero covariance input: the
forced zero shift leaves it exactly zero. -/
theorem zeroInit_shiftedRQ (p : GoldenPCA) (m : ℕ)
    (hcov : ∀ r c, r < 2 → c < 2 → p.covarianceMatrix m r c = some 0) :
    ∀ r c, r < 2 → c < 2 → shiftedRQ 2 (initState p m) r c = some 0 := by
  intro r c hr hc
  have hrq : (initState p m).rq r c = some 0 := hcov r c hr hc
  have hsh : shiftUsed 2 (initState p m) = some 0 := by
    simp [shiftUsed, initState_iters]
  rw [shiftedRQ]
  split
  · rw [hrq, hsh]
    simp
  · exact hrq

/-- The zero 2x2 batch entry, normal mode: the loop exits by the iteration
bound after 65 iterations, unconverged, with an all-NaN accumulator. -/
theorem PZ2_loop_run :
    ∃ t, solveLoop 2 false 65 (initState PZ2 0) = some t ∧ t.iters = 65 ∧
      t.converged = false ∧ (∀ r c, r < 2 → c < 2 → t.vecs r c = none) := by
  have hz := zeroInit_shiftedRQ PZ2 0 (fun r c hr hc => zero22_cov false false r c hr hc)
  obtain ⟨hn, hcv, _⟩ := solveStep2_zero (initState PZ2 0) hz
  rw [show (65 : ℕ) = 64 + 1 from rfl, solveLoop_succ, initState_converged]
  simp only [Bool.false_eq_true, if_false]
  rw [if_neg (fun hcon => absurd hcon.1 (by rw [solveStep_iters, initState_iters]; norm_num))]
  have hsi : (solveStep 2 (initState PZ2 0)).iters = 1 := by
    rw [solveStep_iters, initState_iters]
  obtain ⟨t, ht, h1, h2, h3, _⟩ := solveLoop2_zero_run 64 _ hn hcv
    (by omega) (by omega)
  exact ⟨t, ht, h1, h2, h3⟩

/-- The zero 2x2 batch entry, benchmark mode: the loop never exits. -/
theorem PZ2B_loop_none : ∀ fuel, solveLoop 2 true fuel (initState PZ2B 0) = none := by
  intro fuel
  have hz := zeroInit_shiftedRQ PZ2B 0 (fun r c hr hc => zero22_cov false true r c hr hc)
  cases fuel with
  | zero =>
    rw [solveLoop_zero, initState_converged]
    simp
  | succ fuel =>
    rw [solveLoop_succ, initState_converged]
    simp only [Bool.false_eq_true, if_false]
    rw [if_neg (by simp)]
    obtain ⟨hn, hcv, _⟩ := solveStep2_zero (initState PZ2B 0) hz
    exact solveLoop2_bench_none fuel _ hn hcv

end ZeroMatrixRun

/-- Counterexample to claim C2 as stated: on the all-zero 2x2 covariance input
in normal mode the recorded iteration count is 65, which exceeds
features*features*16 = 64. -/
theorem c2_counterexample :
    ∃ q, solveMatrix PZ2 0 65 = some q ∧ q.iterations 0 = some (65 : ℝ) ∧
      ¬((65 : ℕ) ≤ PZ2.features * PZ2.features * 16) := by
  obtain ⟨t, ht, hit, _, _⟩ := PZ2_loop_run
  have hloop : solveLoop PZ2.features PZ2.benchmarkMode 65 (initState PZ2 0) = some t := by
    rw [PZ2_features, PZ2_benchmarkMode]
    exact ht
  have hq : solveMatrix PZ2 0 65 = some { PZ2 with
      eigenvalues := fun m' k =>
        if m' = 0 ∧ k < PZ2.features then t.rq k k else PZ2.eigenvalues m' k
      eigenvectors := fun m' r c =>
        if m' = 0 ∧ r < PZ2.features ∧ c < PZ2.features then t.vecs r c
        else PZ2.eigenvectors m' r c
      iterations := fun m' => if m' = 0 then some (t.iters : ℝ) else PZ2.iterations m' } := by
    rw [solveMatrix, hloop]
  refine ⟨_, hq, ?_, ?_⟩
  · simp [hit]
  · rw [PZ2_features]
    norm_num

/-- Counterexample to the benchmark half of claim C4: on the all-zero 2x2
covariance input in benchmark mode the eigen solve never terminates (the
Gram-Schmidt 0/0 produces NaN, NaN comparisons keep the convergence flag false
forever, and benchmark mode disables the abort). -/
theorem c4_counterexample : ¬ ∃ fuel, (computeEigenValuesAndVectors fuel PZ2B).isSome := by
  rintro ⟨fuel, h⟩
  have hnone : computeEigenValuesAndVectors fuel PZ2B = none := by
    rw [computeEigenValuesAndVectors, PZ2B_matrixCount,
      show List.range 1 = [0] from rfl, List.foldl_cons, List.foldl_nil]
    show (some PZ2B).bind (fun q => solveMatrix q 0 fuel) = none
    rw [Option.some_bind]
    rw [solveMatrix]
    have hl : solveLoop PZ2B.features PZ2B.benchmarkMode fuel (initState PZ2B 0) = none := by
      rw [PZ2B_features, PZ2B_benchmarkMode]
      exact PZ2B_loop_none fuel
    rw [hl]
  rw [hnone] at h
  simp at h

/-- Witness for C7: the zero 2x2 batch entry hits the bound (unconverged) and
its partial result is reported exactly as a converged one would be. -/
theorem c7_unconverged_result_witness :
    ∃ res q, solveLoop PZ2.features PZ2.benchmarkMode 65 (initState PZ2 0) = some res ∧
      res.converged = false ∧ solveMatrix PZ2 0 65 = some q ∧
      (∀ k, k < PZ2.features → q.eigenvalues 0 k = res.rq k k) ∧
      (∀ r c, r < PZ2.features → c < PZ2.features → q.eigenvectors 0 r c = res.vecs r c) ∧
      q.iterations 0 = some (res.iters : ℝ) := by
  obtain ⟨t, ht, _, hcv, _⟩ := PZ2_loop_run
  have hloop : solveLoop PZ2.features PZ2.benchmarkMode 65 (initState PZ2 0) = some t := by
    rw [PZ2_features, PZ2_benchmarkMode]
    exact ht
  obtain ⟨q, h1, h2, h3, h4⟩ := c7_unconverged_result PZ2 0 65 t hloop hcv
  exact ⟨t, q, hloop, hcv, h1, h2, h3, h4⟩

/-- A NaN accumulator column, once produced, survives to the loop exit (it
turns the whole accumulator NaN on the next iteration). -/
theorem solveLoop2_vecscol_none (bench : Bool) : ∀ (fuel : ℕ) (s res : SolveState),
    (∃ j, j < 2 ∧ ∀ r, r < 2 → s.vecs r j = none) →
    solveLoop 2 bench fuel s = some res →
    ∃ j, j < 2 ∧ ∀ r, r < 2 → res.vecs r j = none := by
  intro fuel
  induction fuel with
  | zero =>
    intro s res hinv h
    rw [solveLoop_zero] at h
    by_cases hc : s.converged
    · rw [if_pos hc] at h
      rw [← Option.some_injective _ h]
      exact hinv
    · simp [hc] at h
  | succ fuel ih =>
    intro s res hinv h
    rw [solveLoop_succ] at h
    by_cases hc : s.converged
    · rw [if_pos hc] at h
      rw [← Option.some_injective _ h]
      exact hinv
    · rw [if_neg hc] at h
      obtain ⟨j, hj, hv⟩ := hinv
      have hinv' : ∃ j', j' < 2 ∧ ∀ r, r < 2 → (solveStep 2 s).vecs r j' = none :=
        ⟨0, by norm_num, fun r hr =>
          stepVecs2_all_none_of_vecscol s j hj hv r 0 hr (by norm_num)⟩
      by_cases hb : 2 * 2 * 16 < (solveStep 2 s).iters ∧ bench = false
      · rw [if_pos hb] at h
        rw [← Option.some_injective _ h]
        exact hinv'
      · rw [if_neg hb] at h
        exact ih _ _ hinv' h

/-- Claim C10 (confirmed, instantiated at features = 2): the Gram-Schmidt step
divides each column by its norm with no zero guard; for every covariance input
with a zero column (in particular the all-zero covariance matrix) the division
0/0 produces NaN entries in Q, and they propagate into the reported eigenvector
output. -/
theorem c10_zero_column_nan (p : GoldenPCA) (m j : ℕ)
    (hf : p.features = 2) (hb : p.benchmarkMode = false) (hj : j < 2)
    (hz : ∀ r, r < 2 → p.covarianceMatrix m r j = some 0) :
    ∃ q, solveMatrix p m 65 = some q ∧
      ∃ r c, r < 2 ∧ c < 2 ∧ q.eigenvectors m r c = none := by
  have hsh : shiftUsed 2 (initState p m) = some 0 := by
    simp [shiftUsed, initState_iters]
  have hcolz : ∀ r, r < 2 → shiftedRQ 2 (initState p m) r j = some 0 := by
    intro r hr
    have hrq : (initState p m).rq r j = some 0 := hz r hr
    rw [shiftedRQ]
    split
    · rw [hrq, hsh]
      simp
    · exact hrq
  have hqcol : ∃ i, i < 2 ∧ ∀ k, k < 2 → qMat 2 (initState p m) k i = none := by
    interval_cases j
    · exact ⟨0, by norm_num, fun k hk => by
        rw [qMat]
        exact gs2_qcol0_none_of_zero_norm (shiftedRQ 2 (initState p m)) 0 0
          (hcolz 0 (by norm_num)) (hcolz 1 (by norm_num)) (by norm_num) k hk⟩
    · cases hA0 : shiftedRQ 2 (initState p m) 0 0 with
      | none =>
        exact ⟨0, by norm_num, fun k hk => by
          rw [qMat]
          exact gs2_qcol0_none_of_colnone _ (Or.inl hA0) k hk⟩
      | some x =>
        cases hA1 : shiftedRQ 2 (initState p m) 1 0 with
        | none =>
          exact ⟨0, by norm_num, fun k hk => by
            rw [qMat]
            exact gs2_qcol0_none_of_colnone _ (Or.inr hA1) k hk⟩
        | some y =>
          by_cases hxy : x * x + y * y = 0
          · exact ⟨0, by norm_num, fun k hk => by
              rw [qMat]
              exact gs2_qcol0_none_of_zero_norm _ x y hA0 hA1 hxy k hk⟩
          · exact ⟨1, by norm_num, fun k hk => by
              rw [qMat]
              exact gs2_qcol1_none_of_zero_col1 _ x y hA0 hA1 hxy
                (hcolz 0 (by norm_num)) (hcolz 1 (by norm_num)) k hk⟩
  obtain ⟨i, hi, hqc⟩ := hqcol
  have hv1 : ∀ r, r < 2 → (solveStep 2 (initState p m)).vecs r i = none :=
    fun r hr => stepVecs2_col_none_of_qcol (initState p m) i hi hqc r hr
  have hsi : (solveStep 2 (initState p m)).iters = 1 := by
    rw [solveStep_iters, initState_iters]
  have hrest := solveLoop_isSome 2 64 (solveStep 2 (initState p m)) (by omega) (by omega)
  obtain ⟨res, hres⟩ := Option.isSome_iff_exists.mp hrest
  have hresinv := solveLoop2_vecscol_none false 64 _ res ⟨i, hi, hv1⟩ hres
  have hfull : solveLoop 2 false 65 (initState p m) = some res := by
    rw [show (65 : ℕ) = 64 + 1 from rfl, solveLoop_succ, initState_converged]
    simp only [Bool.false_eq_true, if_false]
    rw [if_neg (fun hcon => absurd hcon.1 (by omega))]
    exact hres
  have hloop : solveLoop p.features p.benchmarkMode 65 (initState p m) = some res := by
    rw [hf, hb]
    exact hfull
  have hq : solveMatrix p m 65 = some { p with
      eigenvalues := fun m' k =>
        if m' = m ∧ k < p.features then res.rq k k else p.eigenvalues m' k
      eigenvectors := fun m' r c =>
        if m' = m ∧ r < p.features ∧ c < p.features then res.vecs r c
        else p.eigenvectors m' r c
      iterations := fun m' => if m' = m then some (res.iters : ℝ) else p.iterations m' } := by
    rw [solveMatrix, hloop]
  obtain ⟨j', hj', hvres⟩ := hresinv
  refine ⟨_, hq, 0, j', by norm_num, hj', ?_⟩
  simp [hf, hj', hvres 0 (by norm_num)]

/-- Witness for C10 at the all-zero 2x2 covariance input. -/
theorem c10_zero_column_nan_witness :
    PZ2.features = 2 ∧ PZ2.benchmarkMode = false ∧
    (∃ q, solveMatrix PZ2 0 65 = some q ∧
      ∃ r c, r < 2 ∧ c < 2 ∧ q.eigenvectors 0 r c = none) :=
  ⟨rfl, rfl, c10_zero_column_nan PZ2 0 0 rfl rfl (by norm_num)
    (fun r hr => zero22_cov false false r 0 hr (by norm_num))⟩

section ShiftClaim

theorem shiftRowGo_zero_eq (rq : Mat) (sr : ℤ) : shiftRowGo rq 0 sr = sr := rfl

theorem shiftRowGo_succ_eq (rq : Mat) (r : ℕ) (sr : ℤ) :
    shiftRowGo rq (r + 1) sr =
      if rowIsZero rq (r + 1) then shiftRowGo rq r (sr - 1) else sr := rfl

theorem findShiftRow_two (rq : Mat) : findShiftRow 2 rq = shiftRowGo rq 1 0 := rfl

theorem findShiftRow_three (rq : Mat) : findShiftRow 3 rq = shiftRowGo rq 2 1 := rfl

/-- Unfolding of the shift expression once the shift row is known to be the
natural number s. -/
theorem computeShiftValue_pos (f : ℕ) (rq : Mat) (s : ℕ) (h : findShiftRow f rq = (s : ℤ)) :
    computeShiftValue f rq =
      dsub (rq (s + 1) (s + 1))
        (ddiv
          (if dlt (ddiv (dsub (rq s s) (rq (s + 1) (s + 1))) (some 2)) (some 0)
            then dneg (dmul (rq (s + 1) s) (rq (s + 1) s))
            else dmul (rq (s + 1) s) (rq (s + 1) s))
          (dadd (dabs (ddiv (dsub (rq s s) (rq (s + 1) (s + 1))) (some 2)))
            (dsqrt
              (dadd
                (dmul (ddiv (dsub (rq s s) (rq (s + 1) (s + 1))) (some 2))
                  (ddiv (dsub (rq s s) (rq (s + 1) (s + 1))) (some 2)))
                (dmul (rq (s + 1) s) (rq (s + 1) s)))))) := by
  rw [computeShiftValue, h]
  rw [if_pos (Int.natCast_nonneg s)]
  rw [Int.toNat_natCast]

theorem rq3_row2_not_zero : rowIsZero rq3 2 = false := by
  have hlt : dlt (dabs (rq3 2 0)) dThr = false := by
    rw [show rq3 2 0 = some 1 from rfl, dabs_some, dThr]
    exact dlt_false _ _ (by rw [kZeroThreshold]; norm_num)
  rw [rowIsZero, range_two]
  simp [hlt]

theorem rq3_findShiftRow : findShiftRow 3 rq3 = 1 := by
  rw [findShiftRow_three]
  show shiftRowGo rq3 (1 + 1) 1 = 1
  rw [shiftRowGo_succ_eq, rq3_row2_not_zero]
  simp

/-- Counterexample to claim C3 as stated: the symmetric matrix
[[2,0,1],[0,3,0],[1,0,3]] reaches the shift step (shift row 1) with exactly
b = 0 and d = 0; the code has no special case, the divisor
abs d + sqrt (d*d + b*b) is 0, the division is 0/0 = NaN and the computed shift
is NaN, not c = 3. -/
theorem c3_counterexample :
    (∀ r c, r < 3 → c < 3 → rq3 r c = rq3 c r) ∧
    findShiftRow 3 rq3 = 1 ∧ rq3 2 2 = some 3 ∧
    computeShiftValue 3 rq3 = none ∧ (none : D) ≠ some (3 : ℝ) := by
  refine ⟨?_, rq3_findShiftRow, rfl, ?_, by simp⟩
  · intro r c hr hc
    interval_cases r <;> interval_cases c <;> rfl
  · rw [computeShiftValue_pos 3 rq3 1 (by rw [rq3_findShiftRow]; norm_num)]
    rw [show rq3 1 1 = some 3 from rfl, show rq3 2 1 = some 0 from rfl,
      show rq3 2 2 = some 3 from rfl]
    have hd : ddiv (dsub (some (3:ℝ)) (some 3)) (some 2) = some 0 := by
      rw [dsub_some_some, ddiv_some_ne _ _ (by norm_num : (2:ℝ) ≠ 0)]
      norm_num
    simp only [hd, dmul_some_some, dabs_some, dadd_some_some]
    have hz : (0:ℝ) * 0 + 0 * 0 = 0 := by norm_num
    rw [hz, dsqrt_zero]
    have hlt0 : dlt (some (0:ℝ)) (some 0) = false := dlt_false _ _ (by norm_num)
    rw [hlt0]
    simp only [Bool.false_eq_true, if_false, dadd_some_some]
    have hdiv0 : |(0:ℝ)| + 0 = 0 := by norm_num
    rw [hdiv0, ddiv_some_zero]
    simp

/-- Claim C3, amended (corrected): for features = 2, every finite working
matrix that reaches the shift step has its sub-diagonal entry b at least the
threshold in magnitude, so the divisor abs d + sqrt (d*d + b*b) >= abs b > 0
and the shift is a finite value; the division by zero can only happen when b
and d are exactly zero (as in the counterexample above), which for features = 2
is unreachable. -/
theorem c3_shift_finite (rq : Mat)
    (hfin : ∀ r c, r < 2 → c < 2 → rq r c ≠ none)
    (hsr : 0 ≤ findShiftRow 2 rq) :
    ∃ v : ℝ, computeShiftValue 2 rq = some v := by
  have hnz : rowIsZero rq 1 = false := by
    cases hrz : rowIsZero rq 1 with
    | false => rfl
    | true =>
      exfalso
      have : findShiftRow 2 rq = -1 := by
        rw [findShiftRow_two]
        show shiftRowGo rq (0 + 1) 0 = -1
        rw [shiftRowGo_succ_eq, hrz]
        simp [shiftRowGo_zero_eq]
      omega
  have hfsr : findShiftRow 2 rq = 0 := by
    rw [findShiftRow_two]
    show shiftRowGo rq (0 + 1) 0 = 0
    rw [shiftRowGo_succ_eq, hnz]
    simp
  have hb' : dlt (dabs (rq 1 0)) dThr = false := by
    rw [rowIsZero] at hnz
    simpa using hnz
  cases hB : rq 1 0 with
  | none => exact absurd hB (hfin 1 0 (by norm_num) (by norm_num))
  | some b =>
    cases hA : rq 0 0 with
    | none => exact absurd hA (hfin 0 0 (by norm_num) (by norm_num))
    | some a =>
      cases hC : rq 1 1 with
      | none => exact absurd hC (hfin 1 1 (by norm_num) (by norm_num))
      | some c =>
        have hbn : ¬(|b| < kZeroThreshold) := by
          rw [hB, dabs_some, dThr, dlt_some_some] at hb'
          exact of_decide_eq_false hb'
        have hbne : b ≠ 0 := by
          intro h0
          apply hbn
          rw [h0, kZeroThreshold]
          norm_num
        rw [computeShiftValue_pos 2 rq 0 (by rw [hfsr]; norm_num)]
        rw [hA, hB, hC]
        have hd : ddiv (dsub (some a) (some c)) (some 2) = some ((a - c) / 2) := by
          rw [dsub_some_some, ddiv_some_ne _ _ (by norm_num : (2:ℝ) ≠ 0)]
        simp only [hd, dmul_some_some, dabs_some, dadd_some_some, dneg_some]
        have hSnn : (0:ℝ) ≤ (a - c) / 2 * ((a - c) / 2) + b * b :=
          add_nonneg (mul_self_nonneg _) (mul_self_nonneg _)
        rw [dsqrt_nonneg _ hSnn, dadd_some_some]
        have hpos : 0 < |((a - c) / 2)| + Real.sqrt ((a - c) / 2 * ((a - c) / 2) + b * b) := by
          have h1 : 0 < Real.sqrt ((a - c) / 2 * ((a - c) / 2) + b * b) :=
            Real.sqrt_pos.mpr
              (add_pos_of_nonneg_of_pos (mul_self_nonneg _) (mul_self_pos.mpr hbne))
          have h2 : (0:ℝ) ≤ |((a - c) / 2)| := abs_nonneg _
          linarith
        cases hblt : dlt (some ((a - c) / 2)) (some (0:ℝ)) with
        | true =>
          rw [if_pos rfl, ddiv_some_ne _ _ hpos.ne', dsub_some_some]
          exact ⟨_, rfl⟩
        | false =>
          rw [if_neg (by simp), ddiv_some_ne _ _ hpos.ne', dsub_some_some]
          exact ⟨_, rfl⟩

theorem wrq2_row1_not_zero : rowIsZero wrq2 1 = false := by
  have hlt : dlt (dabs (wrq2 1 0)) dThr = false := by
    rw [show wrq2 1 0 = some 1 from rfl, dabs_some, dThr]
    exact dlt_false _ _ (by rw [kZeroThreshold]; norm_num)
  rw [rowIsZero]
  simpa using hlt

theorem wrq2_findShiftRow : findShiftRow 2 wrq2 = 0 := by
  rw [findShiftRow_two]
  show shiftRowGo wrq2 (0 + 1) 0 = 0
  rw [shiftRowGo_succ_eq, wrq2_row1_not_zero]
  simp

/-- Witness for the amended C3 at the finite matrix [[1,0],[1,2]]. -/
theorem c3_shift_finite_witness :
    (∀ r c, r < 2 → c < 2 → wrq2 r c ≠ none) ∧ 0 ≤ findShiftRow 2 wrq2 ∧
    ∃ v : ℝ, computeShiftValue 2 wrq2 = some v := by
  have hfin : ∀ r c, r < 2 → c < 2 → wrq2 r c ≠ none := by
    intro r c hr hc
    interval_cases r <;> interval_cases c <;> simp [wrq2]
  have hsr : 0 ≤ findShiftRow 2 wrq2 := by
    rw [wrq2_findShiftRow]
  exact ⟨hfin, hsr, c3_shift_finite wrq2 hfin hsr⟩

end ShiftClaim

section DebugIndependence

theorem covIth_debug (p : GoldenPCA) (d : Bool) (m : ℕ) :
    computeCovarianceIthMatrix { p with debug := d } m =
      { computeCovarianceIthMatrix p m with debug := d } := rfl

theorem covFold_debug : ∀ (l : List ℕ) (p : GoldenPCA) (d : Bool),
    l.foldl computeCovarianceIthMatrix { p with debug := d } =
      { l.foldl computeCovarianceIthMatrix p with debug := d } := by
  intro l
  induction l with
  | nil => intro p d; rfl
  | cons a l ih =>
    intro p d
    rw [List.foldl_cons, List.foldl_cons, covIth_debug]
    exact ih _ d

theorem computeCovarianceMatrix_debug (p : GoldenPCA) (d : Bool) :
    computeCovarianceMatrix { p with debug := d } =
      { computeCovarianceMatrix p with debug := d } := by
  rw [computeCovarianceMatrix, computeCovarianceMatrix]
  exact covFold_debug _ p d

theorem initState_debug (p : GoldenPCA) (d : Bool) (m : ℕ) :
    initState { p with debug := d } m = initState p m := rfl

theorem solveMatrix_debug (p : GoldenPCA) (d : Bool) (m fuel : ℕ) :
    solveMatrix { p with debug := d } m fuel =
      (solveMatrix p m fuel).map (fun q => { q with debug := d }) := by
  rw [solveMatrix, solveMatrix, initState_debug]
  cases h : solveLoop p.features p.benchmarkMode fuel (initState p m) with
  | none => rfl
  | some s => rfl

theorem eigenFold_none (fuel : ℕ) : ∀ (l : List ℕ),
    l.foldl (fun acc m => acc.bind fun q => solveMatrix q m fuel) none = none := by
  intro l
  induction l with
  | nil => rfl
  | cons a l ih => rw [List.foldl_cons, Option.none_bind]; exact ih

theorem eigenFold_debug (fuel : ℕ) : ∀ (l : List ℕ) (p : GoldenPCA) (d : Bool),
    l.foldl (fun acc m => acc.bind fun q => solveMatrix q m fuel)
        (some { p with debug := d }) =
      (l.foldl (fun acc m => acc.bind fun q => solveMatrix q m fuel) (some p)).map
        (fun q => { q with debug := d }) := by
  intro l
  induction l with
  | nil => intro p d; rfl
  | cons a l ih =>
    intro p d
    rw [List.foldl_cons, List.foldl_cons, Option.some_bind, Option.some_bind,
      solveMatrix_debug]
    cases h : solveMatrix p a fuel with
    | none =>
      rw [Option.map_none']
      rw [eigenFold_none fuel l]
      rfl
    | some q =>
      rw [Option.map_some']
      exact ih q d

theorem computeEigen_debug (fuel : ℕ) (p : GoldenPCA) (d : Bool) :
    computeEigenValuesAndVectors fuel { p with debug := d } =
      (computeEigenValuesAndVectors fuel p).map (fun q => { q with debug := d }) := by
  rw [computeEigenValuesAndVectors, computeEigenValuesAndVectors]
  exact eigenFold_debug fuel _ p d

/-- Claim C8 (confirmed): two runs of the full pipeline on the same input that
differ only in the debug flag produce identical covariance matrices,
eigenvalues, eigenvectors and per-matrix iteration counts; the debug flag is
read only by the diagnostic printing, never by the numeric state. -/
theorem c8_debug_independent (n p count : ℕ) (bench : Bool) (input : ℕ → ℕ → ℝ)
    (fuel : ℕ) :
    (computeEigenValuesAndVectors fuel
        (computeCovarianceMatrix (construct n p count true bench input))).map
        (fun q => (q.covarianceMatrix, q.eigenvalues, q.eigenvectors, q.iterations)) =
      (computeEigenValuesAndVectors fuel
        (computeCovarianceMatrix (construct n p count false bench input))).map
        (fun q => (q.covarianceMatrix, q.eigenvalues, q.eigenvectors, q.iterations)) := by
  have h1 : construct n p count true bench input =
      { construct n p count false bench input with debug := true } := rfl
  rw [h1, computeCovarianceMatrix_debug, computeEigen_debug]
  cases computeEigenValuesAndVectors fuel
      (computeCovarianceMatrix (construct n p count false bench input)) with
  | none => rfl
  | some q => rfl

end DebugIndependence
